import Mathlib

/-!
Verification development for `apps/discord-worker/scripts/subset-cjk-fonts.py`
of the xivdyetools repository.

The script collects the Unicode codepoints used by the project's locale JSON
files, prints bucket statistics, and subsets two CJK fonts to those
codepoints.  This file gives a shallow embedding of that script:

* JSON locale documents become the inductive type `JsonValue`; the recursive
  accumulator `add_strings` becomes `addStrings` (with mutual helpers for the
  two container forms, mirroring the Python recursion into `dict` values and
  `list` items).
* The filesystem is a map from the script's file paths (locale files in the
  two locale directories, font files in the fonts directory) to optional
  contents.
* The fontTools library is not part of the repository; its effect
  (`Subsetter.populate`/`subset`, `TTFont.save`, `getBestCmap`,
  `os.path.getsize` of a saved font) is modelled from the spec where noted.
* `collect_all_characters`, `print_stats`' bucket counts, `subset_font` and
  `main` are embedded as pure functions; prints become a returned log,
  `sys.exit(1)` becomes exit code 1, font writes and the network download
  become recorded events.
-/

/-- A JSON value as produced by Python's `json.load`: strings, numbers,
booleans, null, arrays, and objects (dicts, modelled as association lists in
insertion order, which is the order Python iterates `dict.values()`). -/
inductive JsonValue where
  | str (s : String)
  | num (n : Int)
  | bool (b : Bool)
  | null
  | arr (items : List JsonValue)
  | obj (fields : List (String × JsonValue))

mutual

/-- Embedding of the nested function `add_strings` of
`collect_all_characters`: if the value is a string, add the codepoint of each
of its characters to the accumulated set; if it is a dict, recurse into its
values; if it is a list, recurse into its items; otherwise leave the set
unchanged. -/
def addStrings : JsonValue → Finset Nat → Finset Nat
  | .str s, codepoints => s.data.foldl (fun acc ch => insert ch.toNat acc) codepoints
  | .obj fields, codepoints => addStringsFields fields codepoints
  | .arr items, codepoints => addStringsItems items codepoints
  | .num _, codepoints => codepoints
  | .bool _, codepoints => codepoints
  | .null, codepoints => codepoints

/-- The `for item in obj: add_strings(item)` loop of `add_strings`. -/
def addStringsItems : List JsonValue → Finset Nat → Finset Nat
  | [], codepoints => codepoints
  | item :: rest, codepoints => addStringsItems rest (addStrings item codepoints)

/-- The `for v in obj.values(): add_strings(v)` loop of `add_strings`. -/
def addStringsFields : List (String × JsonValue) → Finset Nat → Finset Nat
  | [], codepoints => codepoints
  | field :: rest, codepoints => addStringsFields rest (addStrings field.2 codepoints)

end

mutual

/-- Specification-side description of the codepoints contributed by a JSON
value: the codepoints of the characters of its string leaves, at any depth. -/
def strCP : JsonValue → Finset Nat
  | .str s => (s.data.map Char.toNat).toFinset
  | .obj fields => strCPFields fields
  | .arr items => strCPItems items
  | .num _ => ∅
  | .bool _ => ∅
  | .null => ∅

/-- Union of `strCP` over the items of an array. -/
def strCPItems : List JsonValue → Finset Nat
  | [] => ∅
  | item :: rest => strCP item ∪ strCPItems rest

/-- Union of `strCP` over the values of an object. -/
def strCPFields : List (String × JsonValue) → Finset Nat
  | [] => ∅
  | field :: rest => strCP field.2 ∪ strCPFields rest

end

/-- `SubValue v w`: the JSON value `v` occurs inside `w`, at any nesting
depth, through object values and array items.  A string leaf of `w` is a
`v = JsonValue.str s` with `SubValue v w`. -/
inductive SubValue : JsonValue → JsonValue → Prop where
  | refl (v : JsonValue) : SubValue v v
  | inObj {v w : JsonValue} {k : String} {fields : List (String × JsonValue)} :
      SubValue v w → (k, w) ∈ fields → SubValue v (.obj fields)
  | inArr {v w : JsonValue} {items : List JsonValue} :
      SubValue v w → w ∈ items → SubValue v (.arr items)

theorem foldl_insert_mem (l : List Char) (acc : Finset Nat) (c : Nat) :
    c ∈ l.foldl (fun acc ch => insert ch.toNat acc) acc ↔
      c ∈ acc ∨ c ∈ (l.map Char.toNat).toFinset := by
  induction l generalizing acc with
  | nil => simp
  | cons ch rest ih =>
      simp only [List.foldl_cons, ih, Finset.mem_insert, List.map_cons,
        List.toFinset_cons]
      tauto

mutual

theorem mem_addStrings (v : JsonValue) (codepoints : Finset Nat) (c : Nat) :
    c ∈ addStrings v codepoints ↔ c ∈ codepoints ∨ c ∈ strCP v := by
  cases v with
  | str s => simpa [addStrings, strCP] using foldl_insert_mem s.data codepoints c
  | num n => simp [addStrings, strCP]
  | bool b => simp [addStrings, strCP]
  | null => simp [addStrings, strCP]
  | arr items =>
      simpa [addStrings, strCP] using mem_addStringsItems items codepoints c
  | obj fields =>
      simpa [addStrings, strCP] using mem_addStringsFields fields codepoints c

theorem mem_addStringsItems (items : List JsonValue) (codepoints : Finset Nat)
    (c : Nat) :
    c ∈ addStringsItems items codepoints ↔
      c ∈ codepoints ∨ c ∈ strCPItems items := by
  cases items with
  | nil => simp [addStringsItems, strCPItems]
  | cons item rest =>
      simp only [addStringsItems, strCPItems,
        mem_addStringsItems rest (addStrings item codepoints) c,
        mem_addStrings item codepoints c, Finset.mem_union]
      tauto

theorem mem_addStringsFields (fields : List (String × JsonValue))
    (codepoints : Finset Nat) (c : Nat) :
    c ∈ addStringsFields fields codepoints ↔
      c ∈ codepoints ∨ c ∈ strCPFields fields := by
  cases fields with
  | nil => simp [addStringsFields, strCPFields]
  | cons field rest =>
      simp only [addStringsFields, strCPFields,
        mem_addStringsFields rest (addStrings field.2 codepoints) c,
        mem_addStrings field.2 codepoints c, Finset.mem_union]
      tauto

end

mutual

theorem mem_strCP (v : JsonValue) (c : Nat) :
    c ∈ strCP v ↔
      ∃ s : String, SubValue (.str s) v ∧ c ∈ s.data.map Char.toNat := by
  cases v with
  | str s =>
      constructor
      · intro hc
        exact ⟨s, SubValue.refl _, by simpa [strCP] using hc⟩
      · rintro ⟨t, hsub, hc⟩
        cases hsub
        simpa [strCP] using hc
  | num n =>
      constructor
      · intro hc; simp [strCP] at hc
      · rintro ⟨t, hsub, hc⟩; cases hsub
  | bool b =>
      constructor
      · intro hc; simp [strCP] at hc
      · rintro ⟨t, hsub, hc⟩; cases hsub
  | null =>
      constructor
      · intro hc; simp [strCP] at hc
      · rintro ⟨t, hsub, hc⟩; cases hsub
  | arr items =>
      rw [show strCP (.arr items) = strCPItems items from rfl,
        mem_strCPItems items c]
      constructor
      · rintro ⟨s, ⟨w, hw, hsub⟩, hc⟩
        exact ⟨s, SubValue.inArr hsub hw, hc⟩
      · rintro ⟨s, hsub, hc⟩
        cases hsub with
        | inArr hsub hw => exact ⟨_, ⟨_, hw, hsub⟩, hc⟩
  | obj fields =>
      rw [show strCP (.obj fields) = strCPFields fields from rfl,
        mem_strCPFields fields c]
      constructor
      · rintro ⟨s, ⟨k, w, hw, hsub⟩, hc⟩
        exact ⟨s, SubValue.inObj hsub hw, hc⟩
      · rintro ⟨s, hsub, hc⟩
        cases hsub with
        | inObj hsub hw => exact ⟨_, ⟨_, _, hw, hsub⟩, hc⟩

theorem mem_strCPItems (items : List JsonValue) (c : Nat) :
    c ∈ strCPItems items ↔
      ∃ s : String, (∃ w ∈ items, SubValue (.str s) w) ∧
        c ∈ s.data.map Char.toNat := by
  cases items with
  | nil => simp [strCPItems]
  | cons item rest =>
      rw [show strCPItems (item :: rest) = strCP item ∪ strCPItems rest from rfl]
      rw [Finset.mem_union, mem_strCP item c, mem_strCPItems rest c]
      constructor
      · rintro (⟨s, hsub, hc⟩ | ⟨s, ⟨w, hw, hsub⟩, hc⟩)
        · exact ⟨s, ⟨item, List.mem_cons_self _ _, hsub⟩, hc⟩
        · exact ⟨s, ⟨w, List.mem_cons_of_mem _ hw, hsub⟩, hc⟩
      · rintro ⟨s, ⟨w, hw, hsub⟩, hc⟩
        rcases List.mem_cons.mp hw with rfl | hw
        · exact Or.inl ⟨s, hsub, hc⟩
        · exact Or.inr ⟨s, ⟨w, hw, hsub⟩, hc⟩

theorem mem_strCPFields (fields : List (String × JsonValue)) (c : Nat) :
    c ∈ strCPFields fields ↔
      ∃ s : String, (∃ k w, (k, w) ∈ fields ∧ SubValue (.str s) w) ∧
        c ∈ s.data.map Char.toNat := by
  cases fields with
  | nil => simp [strCPFields]
  | cons field rest =>
      rw [show strCPFields (field :: rest) = strCP field.2 ∪ strCPFields rest from rfl]
      rw [Finset.mem_union, mem_strCP field.2 c, mem_strCPFields rest c]
      constructor
      · rintro (⟨s, hsub, hc⟩ | ⟨s, ⟨k, w, hw, hsub⟩, hc⟩)
        · exact ⟨s, ⟨field.1, field.2, by simp, hsub⟩, hc⟩
        · exact ⟨s, ⟨k, w, List.mem_cons_of_mem _ hw, hsub⟩, hc⟩
      · rintro ⟨s, ⟨k, w, hw, hsub⟩, hc⟩
        rcases List.mem_cons.mp hw with heq | hw
        · cases heq
          exact Or.inl ⟨s, hsub, hc⟩
        · exact Or.inr ⟨s, ⟨k, w, hw, hsub⟩, hc⟩

end

theorem addStrings_eq_union (v : JsonValue) (codepoints : Finset Nat) :
    addStrings v codepoints = codepoints ∪ strCP v := by
  ext c
  rw [mem_addStrings, Finset.mem_union]

/-- A file path used by the script: a file name joined (`os.path.join`) onto
one of the three fixed directories the script derives from its own location —
`CORE_LOCALES_DIR` (`<project>/xivdyetools-core/src/data/locales`),
`BOT_LOCALES_DIR` (`<worker>/src/locales`) and `FONTS_DIR`
(`<worker>/src/fonts`).  The three directories are distinct, so paths in
different directories are distinct. -/
inductive FPath where
  | coreLocale (name : String)
  | botLocale (name : String)
  | fontsFile (name : String)
deriving DecidableEq

/-- A record of a font's name table (fontTools `font['name'].names`): a
numeric `nameID` and its `string`. -/
structure NameRecord where
  nameID : Nat
  string : String
deriving DecidableEq

/-- Modelled from the spec: the observable state of a fontTools `TTFont` as
used by the script — the set of codepoints mapped by the best character map
(`getBestCmap`; `len` of that mapping is the cardinality of this set), the
name-table records, and a payload standing for all remaining glyph and table
data, which the script never inspects. -/
structure Font where
  cmap : Finset Nat
  names : List NameRecord
  payload : Nat
deriving DecidableEq

/-- The filesystem as the script observes it: `json p = some doc` iff a JSON
file exists at `p` and parses to `doc` (`os.path.exists` + `json.load`), and
`fonts p = some f` iff a font file exists at `p` with state `f`
(`os.path.exists` + `TTFont`). -/
structure FS where
  json : FPath → Option JsonValue
  fonts : FPath → Option Font

/-- `LOCALE_LANGUAGES = ["ja", "ko", "zh", "de", "fr"]`. -/
def LOCALE_LANGUAGES : List String := ["ja", "ko", "zh", "de", "fr"]

/-- `SC_INPUT`: the required Noto Sans SC source font in `FONTS_DIR`. -/
def SC_INPUT : FPath := .fontsFile "NotoSansSC-Regular.ttf"

/-- `SC_OUTPUT`: the Simplified-Chinese subset output in `FONTS_DIR`. -/
def SC_OUTPUT : FPath := .fontsFile "NotoSansSC-Subset.ttf"

/-- `KR_OUTPUT`: the Korean subset output in `FONTS_DIR`. -/
def KR_OUTPUT : FPath := .fontsFile "NotoSansKR-Subset.ttf"

/-- `NOTO_KR_URL`: the fixed remote URL for the Noto Sans KR variable font. -/
def NOTO_KR_URL : String :=
  "https://github.com/google/fonts/raw/main/ofl/notosanskr/NotoSansKR%5Bwght%5D.ttf"

/-- `set(range(0x20, 0x7F))`: the ASCII seed of `collect_all_characters`. -/
def asciiSeed : Finset Nat := Finset.Ico 0x20 0x7F

/-- One iteration of a locale-loading loop of `collect_all_characters`:
`path = os.path.join(DIR, f"{lang}.json")`; if the file exists, feed the
parsed document to `add_strings` and print a "loaded" line, otherwise print a
"not found (skipped)" line.  `mk` builds the path in the loop's directory and
`tag` is the `Core `/`Bot  ` label of the printed line. -/
def localeStep (fs : FS) (mk : String → FPath) (tag : String)
    (acc : Finset Nat × List String) (lang : String) : Finset Nat × List String :=
  match fs.json (mk (lang ++ ".json")) with
  | some doc =>
      (addStrings doc acc.1, acc.2 ++ ["  " ++ tag ++ lang ++ ".json: loaded"])
  | none =>
      (acc.1, acc.2 ++ ["  " ++ tag ++ lang ++ ".json: not found (skipped)"])

/-- Embedding of `collect_all_characters`: seed the codepoint set with
printable ASCII, then run the core-locale loop and the bot-locale loop over
`LOCALE_LANGUAGES`.  Returns the collected set together with the printed
log lines. -/
def collect_all_characters (fs : FS) : Finset Nat × List String :=
  let codepoints := asciiSeed
  let afterCore :=
    LOCALE_LANGUAGES.foldl (localeStep fs .coreLocale "Core ") (codepoints, [])
  LOCALE_LANGUAGES.foldl (localeStep fs .botLocale "Bot  ") afterCore

/-- The codepoints contributed by the locale file at path `p`: the string-leaf
codepoints of its document if it exists, nothing otherwise. -/
def fileCodepoints (fs : FS) (p : FPath) : Finset Nat :=
  match fs.json p with
  | some doc => strCP doc
  | none => ∅

/-- The log line a locale loop prints for language `lang`. -/
def localeLine (fs : FS) (mk : String → FPath) (tag : String)
    (lang : String) : String :=
  match fs.json (mk (lang ++ ".json")) with
  | some _ => "  " ++ tag ++ lang ++ ".json: loaded"
  | none => "  " ++ tag ++ lang ++ ".json: not found (skipped)"

/-- The ten locale file paths `collect_all_characters` probes: each language's
file in the core directory, then each language's file in the bot directory. -/
def localePaths : List FPath :=
  LOCALE_LANGUAGES.map (fun lang => .coreLocale (lang ++ ".json"))
    ++ LOCALE_LANGUAGES.map (fun lang => .botLocale (lang ++ ".json"))

theorem foldl_localeStep_fst (fs : FS) (mk : String → FPath) (tag : String)
    (langs : List String) (acc : Finset Nat × List String) :
    (langs.foldl (localeStep fs mk tag) acc).1
      = acc.1 ∪ langs.foldr
          (fun lang r => fileCodepoints fs (mk (lang ++ ".json")) ∪ r) ∅ := by
  induction langs generalizing acc with
  | nil => simp
  | cons lang rest ih =>
      rw [List.foldl_cons, ih, List.foldr_cons]
      have hstep : (localeStep fs mk tag acc lang).1
          = acc.1 ∪ fileCodepoints fs (mk (lang ++ ".json")) := by
        unfold localeStep fileCodepoints
        cases fs.json (mk (lang ++ ".json")) with
        | none => simp
        | some doc => simp [addStrings_eq_union]
      rw [hstep, Finset.union_assoc]

theorem foldl_localeStep_snd (fs : FS) (mk : String → FPath) (tag : String)
    (langs : List String) (acc : Finset Nat × List String) :
    (langs.foldl (localeStep fs mk tag) acc).2
      = acc.2 ++ langs.map (localeLine fs mk tag) := by
  induction langs generalizing acc with
  | nil => simp
  | cons lang rest ih =>
      rw [List.foldl_cons, ih, List.map_cons]
      have hstep : (localeStep fs mk tag acc lang).2
          = acc.2 ++ [localeLine fs mk tag lang] := by
        unfold localeStep localeLine
        cases fs.json (mk (lang ++ ".json")) <;> simp
      rw [hstep, List.append_assoc]
      rfl

theorem foldr_union_eq_sup (f : FPath → Finset Nat) (l : List FPath) :
    l.foldr (fun p r => f p ∪ r) ∅ = l.toFinset.sup f := by
  induction l with
  | nil => simp
  | cons p rest ih =>
      rw [List.foldr_cons, ih, List.toFinset_cons, Finset.sup_insert,
        Finset.sup_eq_union]

theorem collect_chars_eq (fs : FS) :
    (collect_all_characters fs).1
      = asciiSeed ∪ localePaths.toFinset.sup (fileCodepoints fs) := by
  unfold collect_all_characters
  rw [foldl_localeStep_fst, foldl_localeStep_fst]
  rw [show localePaths.toFinset
        = (LOCALE_LANGUAGES.map (fun lang => FPath.coreLocale (lang ++ ".json"))).toFinset
            ∪ (LOCALE_LANGUAGES.map (fun lang => FPath.botLocale (lang ++ ".json"))).toFinset
      from by rw [localePaths, List.toFinset_append]]
  rw [Finset.sup_union]
  rw [← foldr_union_eq_sup, ← foldr_union_eq_sup]
  rw [List.foldr_map, List.foldr_map, Finset.sup_eq_union, Finset.union_assoc]

theorem collect_log_eq (fs : FS) :
    (collect_all_characters fs).2
      = LOCALE_LANGUAGES.map (localeLine fs .coreLocale "Core ")
          ++ LOCALE_LANGUAGES.map (localeLine fs .botLocale "Bot  ") := by
  unfold collect_all_characters
  rw [foldl_localeStep_snd, foldl_localeStep_snd]
  simp

/-- A filesystem with no locale files and no font files. -/
def emptyFS : FS := { json := fun _ => none, fonts := fun _ => none }

/-- `hangul = sum(1 for c in codepoints if 0xAC00 <= c <= 0xD7AF)` in
`print_stats`. -/
def hangulCount (codepoints : Finset Nat) : Nat :=
  (codepoints.filter (fun c => 0xAC00 ≤ c ∧ c ≤ 0xD7AF)).card

/-- `katakana = sum(1 for c in codepoints if 0x30A0 <= c <= 0x30FF)` in
`print_stats`. -/
def katakanaCount (codepoints : Finset Nat) : Nat :=
  (codepoints.filter (fun c => 0x30A0 ≤ c ∧ c ≤ 0x30FF)).card

/-- `hiragana = sum(1 for c in codepoints if 0x3040 <= c <= 0x309F)` in
`print_stats`. -/
def hiraganaCount (codepoints : Finset Nat) : Nat :=
  (codepoints.filter (fun c => 0x3040 ≤ c ∧ c ≤ 0x309F)).card

/-- `cjk = sum(1 for c in codepoints if 0x4E00 <= c <= 0x9FFF)` in
`print_stats`. -/
def cjkCount (codepoints : Finset Nat) : Nat :=
  (codepoints.filter (fun c => 0x4E00 ≤ c ∧ c ≤ 0x9FFF)).card

/-- `ascii_count = sum(1 for c in codepoints if 0x20 <= c <= 0x7E)` in
`print_stats`. -/
def asciiCount (codepoints : Finset Nat) : Nat :=
  (codepoints.filter (fun c => 0x20 ≤ c ∧ c ≤ 0x7E)).card

/-- The `Other` value printed by `print_stats`:
`len(codepoints) - ascii_count - cjk - hangul - katakana - hiragana`,
computed in Python integer arithmetic (so in `Int`, where a negative value
would be representable if the buckets could overlap). -/
def otherCount (codepoints : Finset Nat) : Int :=
  (codepoints.card : Int) - asciiCount codepoints - cjkCount codepoints
    - hangulCount codepoints - katakanaCount codepoints - hiraganaCount codepoints

/-- A codepoint lies in one of the five reported buckets. -/
def inFiveBuckets (c : Nat) : Bool :=
  (0x20 ≤ c ∧ c ≤ 0x7E) ∨ (0x4E00 ≤ c ∧ c ≤ 0x9FFF) ∨ (0xAC00 ≤ c ∧ c ≤ 0xD7AF)
    ∨ (0x30A0 ≤ c ∧ c ≤ 0x30FF) ∨ (0x3040 ≤ c ∧ c ≤ 0x309F)

theorem fiveSum_eq_filter_card (codepoints : Finset Nat) :
    asciiCount codepoints + cjkCount codepoints + hangulCount codepoints
        + katakanaCount codepoints + hiraganaCount codepoints
      = (codepoints.filter (fun c => inFiveBuckets c = true)).card := by
  unfold asciiCount cjkCount hangulCount katakanaCount hiraganaCount
  rw [Finset.card_filter, Finset.card_filter, Finset.card_filter,
    Finset.card_filter, Finset.card_filter, Finset.card_filter,
    ← Finset.sum_add_distrib, ← Finset.sum_add_distrib,
    ← Finset.sum_add_distrib, ← Finset.sum_add_distrib]
  refine Finset.sum_congr rfl (fun c _ => ?_)
  simp only [inFiveBuckets, decide_eq_true_eq]
  split_ifs <;> simp_all <;> omega

/-- C1: for every JSON locale document fed to `add_strings`, every character
of every string-valued leaf (at any nesting depth, inside mappings or
sequences) has its codepoint in the resulting set, and every codepoint the
call adds beyond the incoming set comes from such a string leaf — so
non-string leaves (numbers, booleans, null) contribute no codepoints. -/
theorem addStrings_collects_string_leaves (doc : JsonValue)
    (codepoints : Finset Nat) :
    (∀ s : String, SubValue (.str s) doc →
        ∀ ch ∈ s.data, ch.toNat ∈ addStrings doc codepoints) ∧
    (∀ c ∈ addStrings doc codepoints,
        c ∈ codepoints ∨
          ∃ s : String, SubValue (.str s) doc ∧ ∃ ch ∈ s.data, ch.toNat = c) := by
  constructor
  · intro s hsub ch hch
    rw [mem_addStrings]
    exact Or.inr ((mem_strCP doc ch.toNat).mpr
      ⟨s, hsub, List.mem_map_of_mem Char.toNat hch⟩)
  · intro c hc
    rcases (mem_addStrings doc codepoints c).mp hc with h | h
    · exact Or.inl h
    · rcases (mem_strCP doc c).mp h with ⟨s, hsub, hmap⟩
      rcases List.mem_map.mp hmap with ⟨ch, hch, rfl⟩
      exact Or.inr ⟨s, hsub, ch, hch, rfl⟩

theorem addStrings_collects_string_leaves_witness :
    (0x60A8 : Nat) ∈ addStrings (.obj [("greeting", .str "您好")]) ∅ := by
  apply (addStrings_collects_string_leaves (.obj [("greeting", .str "您好")]) ∅).1
      "您好" (SubValue.inObj (k := "greeting") (SubValue.refl _) (by simp)) '您'
  simp [String.data]

/-- C2: whatever locale files exist and whatever they contain, the set
returned by `collect_all_characters` contains every codepoint in the ASCII
printable range `0x20`–`0x7E`. -/
theorem collect_contains_ascii (fs : FS) (c : Nat)
    (h1 : 0x20 ≤ c) (h2 : c ≤ 0x7E) : c ∈ (collect_all_characters fs).1 := by
  rw [collect_chars_eq]
  refine Finset.mem_union_left _ ?_
  rw [asciiSeed, Finset.mem_Ico]
  omega

theorem collect_contains_ascii_witness :
    (0x41 : Nat) ∈ (collect_all_characters emptyFS).1 :=
  collect_contains_ascii emptyFS 0x41 (by decide) (by decide)

/-- C3: the five block buckets reported by `print_stats` are pairwise
disjoint ranges, the reported `Other` remainder equals the number of
codepoints in none of the five ranges (hence is never negative), and the five
counts plus the remainder sum exactly to the total size of the set. -/
theorem print_stats_buckets (codepoints : Finset Nat) :
    List.Pairwise Disjoint
        [Finset.Icc (0x20 : Nat) 0x7E, Finset.Icc 0x4E00 0x9FFF,
         Finset.Icc 0xAC00 0xD7AF, Finset.Icc 0x30A0 0x30FF,
         Finset.Icc 0x3040 0x309F]
    ∧ otherCount codepoints
        = ((codepoints.filter (fun c => inFiveBuckets c = false)).card : Int)
    ∧ 0 ≤ otherCount codepoints
    ∧ (asciiCount codepoints : Int) + cjkCount codepoints
        + hangulCount codepoints + katakanaCount codepoints
        + hiraganaCount codepoints + otherCount codepoints
        = (codepoints.card : Int) := by
  have d : ∀ a₁ b₁ a₂ b₂ : Nat, b₁ < a₂ →
      Disjoint (Finset.Icc a₁ b₁) (Finset.Icc a₂ b₂) := by
    intro a₁ b₁ a₂ b₂ h
    rw [Finset.disjoint_left]
    intro x hx1 hx2
    rw [Finset.mem_Icc] at hx1 hx2
    omega
  have hsplit := Finset.filter_card_add_filter_neg_card_eq_card
      (s := codepoints) (p := fun c => inFiveBuckets c = true)
  have hneg : (codepoints.filter (fun c => ¬ inFiveBuckets c = true)).card
      = (codepoints.filter (fun c => inFiveBuckets c = false)).card := by
    congr 1
    apply Finset.filter_congr
    intro c _
    simp
  have hfive := fiveSum_eq_filter_card codepoints
  refine ⟨?_, ?_, ?_, ?_⟩
  · refine List.Pairwise.cons ?_ (List.Pairwise.cons ?_ (List.Pairwise.cons ?_
      (List.Pairwise.cons ?_ (List.Pairwise.cons ?_ List.Pairwise.nil))))
    · intro b hb
      fin_cases hb
      · exact d _ _ _ _ (by norm_num)
      · exact d _ _ _ _ (by norm_num)
      · exact d _ _ _ _ (by norm_num)
      · exact d _ _ _ _ (by norm_num)
    · intro b hb
      fin_cases hb
      · exact d _ _ _ _ (by norm_num)
      · exact (d _ _ _ _ (by norm_num)).symm
      · exact (d _ _ _ _ (by norm_num)).symm
    · intro b hb
      fin_cases hb
      · exact (d _ _ _ _ (by norm_num)).symm
      · exact (d _ _ _ _ (by norm_num)).symm
    · intro b hb
      fin_cases hb
      exact (d _ _ _ _ (by norm_num)).symm
    · intro b hb
      cases hb
  · unfold otherCount
    omega
  · unfold otherCount
    omega
  · unfold otherCount
    omega

theorem print_stats_buckets_witness :
    0 ≤ otherCount (Finset.Icc 0x20 0x7E) :=
  (print_stats_buckets (Finset.Icc 0x20 0x7E)).2.2.1

/-- C8: for every language in `LOCALE_LANGUAGES` and each of the two locale
directories, a missing `<lang>.json` is skipped with a logged
`not found (skipped)` notice and does not fail: collection completes and
returns the ASCII seed unioned with the contributions of only the files that
exist (`fileCodepoints` is empty at a missing path). -/
theorem collect_skips_missing_files (fs : FS) (lang : String)
    (hlang : lang ∈ LOCALE_LANGUAGES) :
    (fs.json (.coreLocale (lang ++ ".json")) = none →
        ("  " ++ "Core " ++ lang ++ ".json: not found (skipped)")
          ∈ (collect_all_characters fs).2) ∧
    (fs.json (.botLocale (lang ++ ".json")) = none →
        ("  " ++ "Bot  " ++ lang ++ ".json: not found (skipped)")
          ∈ (collect_all_characters fs).2) ∧
    (collect_all_characters fs).1
      = asciiSeed ∪ localePaths.toFinset.sup (fileCodepoints fs) := by
  refine ⟨?_, ?_, collect_chars_eq fs⟩
  · intro hmiss
    rw [collect_log_eq]
    refine List.mem_append.mpr (Or.inl ?_)
    have hline : localeLine fs .coreLocale "Core " lang
        = "  " ++ "Core " ++ lang ++ ".json: not found (skipped)" := by
      unfold localeLine
      rw [hmiss]
    exact hline ▸ List.mem_map_of_mem (localeLine fs .coreLocale "Core ") hlang
  · intro hmiss
    rw [collect_log_eq]
    refine List.mem_append.mpr (Or.inr ?_)
    have hline : localeLine fs .botLocale "Bot  " lang
        = "  " ++ "Bot  " ++ lang ++ ".json: not found (skipped)" := by
      unfold localeLine
      rw [hmiss]
    exact hline ▸ List.mem_map_of_mem (localeLine fs .botLocale "Bot  ") hlang

theorem collect_skips_missing_files_witness :
    ("  " ++ "Core " ++ "ja" ++ ".json: not found (skipped)")
      ∈ (collect_all_characters emptyFS).2 :=
  (collect_skips_missing_files emptyFS "ja" (by simp [LOCALE_LANGUAGES])).1 rfl

/-- C10: `collect_all_characters` returns exactly the ASCII seed unioned
with, for each existing locale file, that file's string-leaf codepoints.  The
right-hand side is a `Finset.sup` over the unordered set of locale paths, and
the same set results from folding the per-file contributions over the paths
in any order, so the result is independent of the processing order and (being
a set) of repeated occurrences of the same character. -/
theorem collect_eq_seed_union_files (fs : FS) :
    (collect_all_characters fs).1
      = asciiSeed ∪ localePaths.toFinset.sup (fileCodepoints fs)
    ∧ ∀ l : List FPath, l.Perm localePaths →
        (collect_all_characters fs).1
          = asciiSeed ∪ l.foldr (fun p r => fileCodepoints fs p ∪ r) ∅ := by
  refine ⟨collect_chars_eq fs, ?_⟩
  intro l hperm
  rw [collect_chars_eq fs, foldr_union_eq_sup,
    List.toFinset_eq_of_perm l localePaths hperm]

theorem collect_eq_seed_union_files_witness :
    (collect_all_characters emptyFS).1
      = asciiSeed ∪ localePaths.reverse.foldr
          (fun p r => fileCodepoints emptyFS p ∪ r) ∅ :=
  (collect_eq_seed_union_files emptyFS).2 localePaths.reverse
    (List.reverse_perm localePaths)

/-- Modelled from the spec: the effect of the fontTools `Subsetter`
configured by `subset_font` (`layout_features = ['*']`, `name_IDs = ['*']`,
`notdef_outline = True`) on the observable font state: the font is restricted
to the glyphs reachable from the requested codepoints, so afterwards the best
character map maps exactly the requested codepoints the source font already
mapped; all name-table records are retained. -/
def subsetLib (font : Font) (unicodes : Finset Nat) : Font :=
  { font with cmap := font.cmap ∩ unicodes }

/-- One step of the name-record fix-up loop of `subset_font`:
`if record.nameID in fix_names: record.string = fix_names[record.nameID]`. -/
def fixRecord (fix_names : List (Nat × String)) (record : NameRecord) :
    NameRecord :=
  match fix_names.lookup record.nameID with
  | some s => { record with string := s }
  | none => record

/-- The body of `subset_font` once the font is loaded: subset it, rewrite the
name records listed in `fix_names` (if supplied), save at `output_path`
(recorded as an update of the font map), and return the saved file's byte
size together with `len(font.getBestCmap())` of the output font.  `getsize`
is `os.path.getsize` on a saved font, modelled from the spec as an arbitrary
function of the saved font's state. -/
def subset_font_run (getsize : Font → Nat) (fonts : FPath → Option Font)
    (font : Font) (output_path : FPath) (codepoints : Finset Nat)
    (fix_names : Option (List (Nat × String))) :
    (FPath → Option Font) × Nat × Nat :=
  let subsetted := subsetLib font codepoints
  let fixed :=
    match fix_names with
    | some m => { subsetted with names := subsetted.names.map (fixRecord m) }
    | none => subsetted
  let fonts1 := fun p => if p = output_path then some fixed else fonts p
  (fonts1, getsize fixed, fixed.cmap.card)

/-- Embedding of `subset_font(input_path, output_path, codepoints,
fix_names)`: load the font at `input_path` (`TTFont`), which fails — `none`,
the library failure propagating — when no font file is there, then run the
subsetting body. -/
def subset_font (getsize : Font → Nat) (fonts : FPath → Option Font)
    (input_path output_path : FPath) (codepoints : Finset Nat)
    (fix_names : Option (List (Nat × String))) :
    Option ((FPath → Option Font) × Nat × Nat) :=
  match fonts input_path with
  | some font =>
      some (subset_font_run getsize fonts font output_path codepoints fix_names)
  | none => none

/-- The `fix_names` mapping `main` passes when subsetting the Korean font. -/
def krFixNames : List (Nat × String) :=
  [(1, "Noto Sans KR"), (2, "Regular"), (4, "Noto Sans KR Regular"),
   (6, "NotoSansKR-Regular")]

/-- `kr_candidates`: the candidate Korean source-font paths, in the order
`main` probes them. -/
def kr_candidates : List FPath :=
  [.fontsFile "NotoSansKR-Variable.ttf", .fontsFile "NotoSansKR[wght].ttf",
   .fontsFile "NotoSansKR-Regular.ttf"]

/-- `kr_input = next((p for p in kr_candidates if os.path.exists(p)), None)`,
paired with the font found at the first existing path. -/
def findKrInput (fonts : FPath → Option Font) :
    List FPath → Option (FPath × Font)
  | [] => none
  | p :: rest =>
      match fonts p with
      | some f => some (p, f)
      | none => findKrInput fonts rest

/-- The observable outcome of one `main` run: the process exit status (`0`
for normal completion, `1` for `sys.exit(1)`), the font files written by
`font.save` in order, the downloads performed by `urllib.request.urlretrieve`
(URL and destination), the Korean input path that was subsetted, and the
final state of the font files. -/
structure MainResult where
  exitCode : Nat
  writes : List FPath
  downloads : List (String × FPath)
  krInputUsed : Option FPath
  fontsAfter : FPath → Option Font

/-- Embedding of `main` (named `mainRun` because `main` is reserved in
Lean): collect the codepoints, exit with status 1 when the
Simplified-Chinese source font is absent, otherwise subset it to `SC_OUTPUT`;
then resolve the Korean source from `kr_candidates`, downloading
`NOTO_KR_URL` to `NotoSansKR-Variable.ttf` when no candidate exists, and
subset it to `KR_OUTPUT` with the Korean name fixes.  `net url` is the
font the network serves at `url` (modelled from the spec: the download
succeeds; a network failure would propagate uncaught). -/
def mainRun (fs : FS) (net : String → Font) (getsize : Font → Nat) : MainResult :=
  let codepoints := (collect_all_characters fs).1
  match fs.fonts SC_INPUT with
  | none =>
      { exitCode := 1, writes := [], downloads := [], krInputUsed := none,
        fontsAfter := fs.fonts }
  | some scFont =>
      let scRun := subset_font_run getsize fs.fonts scFont SC_OUTPUT codepoints none
      match findKrInput scRun.1 kr_candidates with
      | some (krPath, krFont) =>
          let krRun := subset_font_run getsize scRun.1 krFont KR_OUTPUT codepoints
            (some krFixNames)
          { exitCode := 0, writes := [SC_OUTPUT, KR_OUTPUT], downloads := [],
            krInputUsed := some krPath, fontsAfter := krRun.1 }
      | none =>
          let krPath : FPath := .fontsFile "NotoSansKR-Variable.ttf"
          let krFont := net NOTO_KR_URL
          let fonts2 := fun p => if p = krPath then some krFont else scRun.1 p
          let krRun := subset_font_run getsize fonts2 krFont KR_OUTPUT codepoints
            (some krFixNames)
          { exitCode := 0, writes := [SC_OUTPUT, KR_OUTPUT],
            downloads := [(NOTO_KR_URL, krPath)],
            krInputUsed := some krPath, fontsAfter := krRun.1 }

/-- A sample font used to instantiate the font theorems. -/
def sampleFont : Font :=
  { cmap := {0x41, 0x4E00}, names := [⟨1, "Old Family"⟩, ⟨17, "Keep"⟩],
    payload := 7 }

/-- A sample filesystem font map: only `SC_INPUT` exists. -/
def sampleFonts : FPath → Option Font :=
  fun p => if p = SC_INPUT then some sampleFont else none

/-- C4: if the required Simplified-Chinese input font is absent, `main`
terminates with a non-zero exit status (`sys.exit(1)`), writes no font output
file, and leaves the font files untouched. -/
theorem main_exits_without_sc_input (fs : FS) (net : String → Font)
    (getsize : Font → Nat) (h : fs.fonts SC_INPUT = none) :
    (mainRun fs net getsize).exitCode ≠ 0
      ∧ (mainRun fs net getsize).writes = []
      ∧ (mainRun fs net getsize).fontsAfter = fs.fonts := by
  unfold mainRun
  rw [h]
  exact ⟨Nat.one_ne_zero, rfl, rfl⟩

theorem main_exits_without_sc_input_witness :
    (mainRun emptyFS (fun _ => sampleFont) (fun _ => 0)).exitCode ≠ 0
      ∧ (mainRun emptyFS (fun _ => sampleFont) (fun _ => 0)).writes = []
      ∧ (mainRun emptyFS (fun _ => sampleFont) (fun _ => 0)).fontsAfter
        = emptyFS.fonts :=
  main_exits_without_sc_input emptyFS (fun _ => sampleFont) (fun _ => 0) rfl

/-- C6: for any input font and codepoint set, the set of codepoints mapped by
the best character map of the font `subset_font` saves at `output_path` is a
subset of the requested codepoint set. -/
theorem subset_font_cmap_subset (getsize : Font → Nat)
    (fonts : FPath → Option Font) (input_path output_path : FPath)
    (codepoints : Finset Nat) (fix_names : Option (List (Nat × String)))
    (result : (FPath → Option Font) × Nat × Nat)
    (hr : subset_font getsize fonts input_path output_path codepoints fix_names
        = some result)
    (saved : Font) (hsaved : result.1 output_path = some saved) :
    saved.cmap ⊆ codepoints := by
  unfold subset_font at hr
  cases hfont : fonts input_path with
  | none => rw [hfont] at hr; exact absurd hr (by simp)
  | some font =>
      rw [hfont] at hr
      rw [Option.some_inj] at hr
      rw [← hr] at hsaved
      simp only [subset_font_run, if_true, Option.some_inj] at hsaved
      rw [← hsaved]
      cases fix_names <;>
        simp [subsetLib, Finset.inter_subset_right]

theorem subset_font_cmap_subset_witness :
    (0x41 : Nat) ∈ ({0x41} : Finset Nat) :=
  subset_font_cmap_subset (fun _ => 0) sampleFonts SC_INPUT SC_OUTPUT {0x41}
    none
    (subset_font_run (fun _ => 0) sampleFonts sampleFont SC_OUTPUT {0x41} none)
    rfl
    { cmap := sampleFont.cmap ∩ {0x41}, names := sampleFont.names, payload := 7 }
    rfl
    (by decide)

/-- C9: every successful `subset_font` call returns a pair whose first
component is the byte size of the file written at `output_path` (the size of
the saved output font) and whose second component is the number of entries in
the output font's best character map. -/
theorem subset_font_returns_size_and_count (getsize : Font → Nat)
    (fonts : FPath → Option Font) (input_path output_path : FPath)
    (codepoints : Finset Nat) (fix_names : Option (List (Nat × String)))
    (result : (FPath → Option Font) × Nat × Nat)
    (hr : subset_font getsize fonts input_path output_path codepoints fix_names
        = some result) :
    ∃ saved : Font, result.1 output_path = some saved
      ∧ result.2.1 = getsize saved ∧ result.2.2 = saved.cmap.card := by
  unfold subset_font at hr
  cases hfont : fonts input_path with
  | none => rw [hfont] at hr; exact absurd hr (by simp)
  | some font =>
      rw [hfont, Option.some_inj] at hr
      rw [← hr]
      simp only [subset_font_run, if_true]
      exact ⟨_, rfl, rfl, rfl⟩

theorem subset_font_returns_size_and_count_witness :
    ∃ saved : Font,
      (subset_font_run (fun f => f.cmap.card + f.names.length) sampleFonts
          sampleFont SC_OUTPUT {0x41} none).1 SC_OUTPUT = some saved
        ∧ (subset_font_run (fun f => f.cmap.card + f.names.length) sampleFonts
            sampleFont SC_OUTPUT {0x41} none).2.1
          = saved.cmap.card + saved.names.length
        ∧ (subset_font_run (fun f => f.cmap.card + f.names.length) sampleFonts
            sampleFont SC_OUTPUT {0x41} none).2.2 = saved.cmap.card :=
  subset_font_returns_size_and_count (fun f => f.cmap.card + f.names.length)
    sampleFonts SC_INPUT SC_OUTPUT {0x41} none
    (subset_font_run (fun f => f.cmap.card + f.names.length) sampleFonts
      sampleFont SC_OUTPUT {0x41} none)
    rfl

/-- The subsetted-then-saved Korean sample font, with the `nameID = 1` record
overwritten by `krFixNames` and the `nameID = 17` record untouched. -/
def krSavedSample : Font :=
  { cmap := sampleFont.cmap ∩ {0x41},
    names := [⟨1, "Noto Sans KR"⟩, ⟨17, "Keep"⟩], payload := 7 }

/-- C5: when the Korean name-record override mapping is supplied to
`subset_font`, the saved output font has record-for-record the name records
the subsetting operation produced, except that every record whose ID is 1, 2,
4 or 6 carries exactly the corresponding override string; records whose ID is
not in the mapping are unchanged. -/
theorem subset_font_fix_names (getsize : Font → Nat)
    (fonts : FPath → Option Font) (input_path output_path : FPath)
    (codepoints : Finset Nat) (font : Font)
    (hfont : fonts input_path = some font)
    (result : (FPath → Option Font) × Nat × Nat)
    (hr : subset_font getsize fonts input_path output_path codepoints
        (some krFixNames) = some result)
    (saved : Font) (hsaved : result.1 output_path = some saved) :
    saved.names.length = (subsetLib font codepoints).names.length
      ∧ ∀ i (hi : i < saved.names.length)
          (hi2 : i < (subsetLib font codepoints).names.length),
          (saved.names.get ⟨i, hi⟩).nameID
              = ((subsetLib font codepoints).names.get ⟨i, hi2⟩).nameID
            ∧ (((subsetLib font codepoints).names.get ⟨i, hi2⟩).nameID = 1 →
                (saved.names.get ⟨i, hi⟩).string = "Noto Sans KR")
            ∧ (((subsetLib font codepoints).names.get ⟨i, hi2⟩).nameID = 2 →
                (saved.names.get ⟨i, hi⟩).string = "Regular")
            ∧ (((subsetLib font codepoints).names.get ⟨i, hi2⟩).nameID = 4 →
                (saved.names.get ⟨i, hi⟩).string = "Noto Sans KR Regular")
            ∧ (((subsetLib font codepoints).names.get ⟨i, hi2⟩).nameID = 6 →
                (saved.names.get ⟨i, hi⟩).string = "NotoSansKR-Regular")
            ∧ (((subsetLib font codepoints).names.get ⟨i, hi2⟩).nameID ∉
                  krFixNames.map Prod.fst →
                saved.names.get ⟨i, hi⟩
                  = (subsetLib font codepoints).names.get ⟨i, hi2⟩) := by
  unfold subset_font at hr
  rw [hfont, Option.some_inj] at hr
  rw [← hr] at hsaved
  simp only [subset_font_run, if_true, Option.some_inj] at hsaved
  have hnames : saved.names
      = (subsetLib font codepoints).names.map (fixRecord krFixNames) := by
    rw [← hsaved]
  constructor
  · rw [hnames, List.length_map]
  · intro i hi hi2
    have hget : saved.names.get ⟨i, hi⟩
        = fixRecord krFixNames ((subsetLib font codepoints).names.get ⟨i, hi2⟩) := by
      have := List.get_of_eq hnames ⟨i, hi⟩
      rw [this]
      simp [List.getElem_map]
    set b := (subsetLib font codepoints).names.get ⟨i, hi2⟩ with hb
    rw [hget]
    unfold fixRecord
    refine ⟨?_, ?_, ?_, ?_, ?_, ?_⟩
    · cases h : krFixNames.lookup b.nameID <;> rfl
    · intro h1
      rw [show krFixNames.lookup b.nameID = some "Noto Sans KR" from by
        rw [h1]; rfl]
    · intro h1
      rw [show krFixNames.lookup b.nameID = some "Regular" from by
        rw [h1]; rfl]
    · intro h1
      rw [show krFixNames.lookup b.nameID = some "Noto Sans KR Regular" from by
        rw [h1]; rfl]
    · intro h1
      rw [show krFixNames.lookup b.nameID = some "NotoSansKR-Regular" from by
        rw [h1]; rfl]
    · intro hnot
      rw [show krFixNames.lookup b.nameID = none from by
        simp only [krFixNames, List.map_cons, List.map_nil, List.mem_cons,
          List.not_mem_nil, or_false, not_or] at hnot
        have e1 : (b.nameID == 1) = false := by simp [hnot.1]
        have e2 : (b.nameID == 2) = false := by simp [hnot.2.1]
        have e3 : (b.nameID == 4) = false := by simp [hnot.2.2.1]
        have e4 : (b.nameID == 6) = false := by simp [hnot.2.2.2]
        simp [List.lookup, e1, e2, e3, e4]]

theorem subset_font_fix_names_witness :
    krSavedSample.names.length = (subsetLib sampleFont {0x41}).names.length :=
  (subset_font_fix_names (fun _ => 0) sampleFonts SC_INPUT KR_OUTPUT {0x41}
    sampleFont rfl
    (subset_font_run (fun _ => 0) sampleFonts sampleFont KR_OUTPUT {0x41}
      (some krFixNames))
    rfl krSavedSample rfl).1

theorem findKrInput_update_notmem (fonts : FPath → Option Font) (q : FPath)
    (f : Font) (l : List FPath) (hq : q ∉ l) :
    findKrInput (fun p => if p = q then some f else fonts p) l
      = findKrInput fonts l := by
  induction l with
  | nil => rfl
  | cons p rest ih =>
      have hne : p ≠ q := fun h => hq (h ▸ List.mem_cons_self p rest)
      have hrest : q ∉ rest := fun h => hq (List.mem_cons_of_mem p h)
      simp only [findKrInput, if_neg hne]
      cases fonts p with
      | some f2 => rfl
      | none => exact ih hrest

/-- C7: with the Simplified-Chinese input present, `main` probes exactly the
three candidate Korean input filenames `NotoSansKR-Variable.ttf`,
`NotoSansKR[wght].ttf`, `NotoSansKR-Regular.ttf`, in that order, and
subsets the first that exists; when none exists it instead downloads
`NOTO_KR_URL` to the fixed path `NotoSansKR-Variable.ttf` and completes
normally (exit status 0) — the absence is not an error. -/
theorem main_kr_resolution (fs : FS) (net : String → Font)
    (getsize : Font → Nat) (scFont : Font)
    (hsc : fs.fonts SC_INPUT = some scFont) :
    kr_candidates
        = [.fontsFile "NotoSansKR-Variable.ttf", .fontsFile "NotoSansKR[wght].ttf",
           .fontsFile "NotoSansKR-Regular.ttf"]
      ∧ (∀ p f, findKrInput fs.fonts kr_candidates = some (p, f) →
          (mainRun fs net getsize).krInputUsed = some p
            ∧ (mainRun fs net getsize).downloads = []
            ∧ (mainRun fs net getsize).exitCode = 0)
      ∧ (findKrInput fs.fonts kr_candidates = none →
          (mainRun fs net getsize).downloads
              = [(NOTO_KR_URL, .fontsFile "NotoSansKR-Variable.ttf")]
            ∧ (mainRun fs net getsize).krInputUsed
              = some (.fontsFile "NotoSansKR-Variable.ttf")
            ∧ (mainRun fs net getsize).exitCode = 0) := by
  have hout : SC_OUTPUT ∉ kr_candidates := by decide
  have hprobe :
      findKrInput
          (subset_font_run getsize fs.fonts scFont SC_OUTPUT
            (collect_all_characters fs).1 none).1 kr_candidates
        = findKrInput fs.fonts kr_candidates := by
    simp only [subset_font_run]
    exact findKrInput_update_notmem fs.fonts SC_OUTPUT _ kr_candidates hout
  refine ⟨rfl, ?_, ?_⟩
  · intro p f hfind
    unfold mainRun
    rw [hsc]
    simp only [hprobe, hfind]
    exact ⟨trivial, trivial, trivial⟩
  · intro hfind
    unfold mainRun
    rw [hsc]
    simp only [hprobe, hfind]
    exact ⟨trivial, trivial, trivial⟩

/-- A filesystem where only the Simplified-Chinese source font exists. -/
def scOnlyFS : FS := { json := fun _ => none, fonts := sampleFonts }

theorem main_kr_resolution_witness :
    (mainRun scOnlyFS (fun _ => sampleFont) (fun _ => 0)).downloads
        = [(NOTO_KR_URL, .fontsFile "NotoSansKR-Variable.ttf")]
      ∧ (mainRun scOnlyFS (fun _ => sampleFont) (fun _ => 0)).krInputUsed
        = some (.fontsFile "NotoSansKR-Variable.ttf")
      ∧ (mainRun scOnlyFS (fun _ => sampleFont) (fun _ => 0)).exitCode = 0 :=
  (main_kr_resolution scOnlyFS (fun _ => sampleFont) (fun _ => 0) sampleFont
    rfl).2.2 rfl
